import Mathlib

/-!
Shallow embedding of the slash-command argument parsing and completion engine
of the `simple-tui` repository, translated from `src/tui/commands.py`,
`src/tui/completers.py` and `src/tui/app.py`.

Binding maps are modelled as insertion-ordered association lists with Python
`dict` update semantics (assignment to an existing key updates in place,
a fresh key is appended).  Values are modelled by `Value`: Python `None`,
a scalar produced by one of the converters of `_converter_for` (app.py), or a
list of such scalars (repeat arguments).  Float conversion, the filesystem
path completer and the history-store completer are external collaborators the
claims do not touch and are not modelled.
-/

set_option autoImplicit false

namespace Tui

/-- Scalar values produced by the converters of `_converter_for` (app.py):
`str`, `int`, and `pathlib.Path` (a path is kept as its raw constructor
string; `pathlib`'s normalisation is not modelled). -/
inductive Prim where
  | pStr (s : String)
  | pInt (n : Int)
  | pPath (s : String)
deriving DecidableEq

/-- A Python value stored in the binding map: `None`, a converted scalar, or
a list of converted scalars (repeat arguments accumulate lists). -/
inductive Value where
  | vNone
  | prim (p : Prim)
  | vList (l : List Prim)
deriving DecidableEq

/-- Binding map: insertion-ordered association list mirroring a Python dict. -/
abbrev VMap := List (String × Value)

/-- Python dict assignment `m[k] = v`: update in place if present, else append. -/
def vset (m : VMap) (k : String) (v : Value) : VMap :=
  match m with
  | [] => [(k, v)]
  | (k₀, v₀) :: rest => if k₀ = k then (k₀, v) :: rest else (k₀, v₀) :: vset rest k v

/-- Python dict lookup `m.get(k)` (None when absent). -/
def vget? (m : VMap) (k : String) : Option Value :=
  match m with
  | [] => none
  | (k₀, v₀) :: rest => if k₀ = k then some v₀ else vget? rest k

/-- Python `m.setdefault(k, []).append(p)`.  In every state the parser can
reach, a key that is appended to holds a list; the scalar fallback below is
unreachable and only makes the function total. -/
def vappend (m : VMap) (k : String) (p : Prim) : VMap :=
  match vget? m k with
  | some (.vList l) => vset m k (.vList (l ++ [p]))
  | some _ => vset m k (.vList [p])
  | none => vset m k (.vList [p])

/-- Python `str.startswith` as a check on the character list. -/
def pyStartsWith (s pat : String) : Bool :=
  pat.data.isPrefixOf s.data

/-- Check for the flag marker, Python `tok.startswith("--")`. -/
def startsDashDash (s : String) : Bool :=
  pyStartsWith s "--"

/-- Split a character list at the first `'='`, if any. -/
def splitEqAux : List Char → Option (List Char × List Char)
  | [] => none
  | c :: cs =>
    if c = '=' then some ([], cs)
    else
      match splitEqAux cs with
      | none => none
      | some (a, b) => some (c :: a, b)

/-- Python `tok.partition("=")`: the flag key and, when a `'='` is present,
the text after the first `'='`. -/
def splitFlag (s : String) : String × Option String :=
  match splitEqAux s.data with
  | none => (s, none)
  | some (a, b) => (String.mk a, some (String.mk b))

/-- Whether the token contains a `'='` (Python `"=" in tok`). -/
def hasEq (s : String) : Bool :=
  (splitFlag s).2.isSome

/-- Python `str.isspace` characters that `str.strip` removes (the common
four; the rarer vertical-tab and form-feed are not modelled). -/
def isSpaceChar (c : Char) : Bool :=
  c = ' ' || c = '\t' || c = '\n' || c = '\r'

/-- Python `str.strip()`. -/
def pyStrip (s : String) : String :=
  String.mk (((s.data.dropWhile isSpaceChar).reverse.dropWhile isSpaceChar).reverse)

/-- Split a character list on `','` (Python `str.split(',')`). -/
def splitCommaAux : List Char → List (List Char)
  | [] => [[]]
  | c :: cs =>
    if c = ',' then [] :: splitCommaAux cs
    else
      match splitCommaAux cs with
      | [] => [[c]]
      | g :: gs => (c :: g) :: gs

/-- Python `[x.strip() for x in ans.split(',') if x.strip()]`. -/
def splitCommaStrip (s : String) : List String :=
  ((splitCommaAux s.data).map (fun cs => pyStrip (String.mk cs))).filter (· ≠ "")

/-- Python `int(s)`: optional surrounding whitespace, an optional sign and a
non-empty digit run (numeric underscores are not modelled). -/
def pyParseInt (s : String) : Option Int :=
  let cs := s.data.dropWhile isSpaceChar
  let cs := (cs.reverse.dropWhile isSpaceChar).reverse
  let signDigits : Bool × List Char :=
    match cs with
    | '-' :: rest => (true, rest)
    | '+' :: rest => (false, rest)
    | _ => (false, cs)
  let digits := signDigits.2
  if digits = [] then none
  else if digits.all Char.isDigit then
    let n : Nat := digits.foldl (fun acc c => acc * 10 + (c.toNat - 48)) 0
    some (if signDigits.1 then -(n : Int) else (n : Int))
  else none

/-- Python `str(scalar)`. -/
def strOfPrim : Prim → String
  | .pStr s => s
  | .pInt n => toString n
  | .pPath s => s

/-- Python `str(value)` for the values the parser stores (the list rendering
approximates `repr` without quotes; it only feeds prompt pre-fill text). -/
def strOfValue : Value → String
  | .vNone => "None"
  | .prim p => strOfPrim p
  | .vList l => "[" ++ String.intercalate ", " (l.map strOfPrim) ++ "]"

/-- Value kinds of `Arg.type` handled by `_converter_for` (app.py). -/
inductive ConvKind where
  | kStr
  | kInt
  | kPath
deriving DecidableEq

/-- `_converter_for` (app.py): the conversion function for a declared type;
a conversion failure (Python exception) is `none`. -/
def converterFor : ConvKind → String → Option Prim
  | .kStr, s => some (.pStr s)
  | .kInt, s => (pyParseInt s).map .pInt
  | .kPath, s => some (.pPath s)

/-- The context bundle handed to a completer function (commands.py builds it
at `SlashCompleter.get_completions`); the live-state snapshot and the history
store handle are external collaborators and are omitted. -/
structure Ctx where
  pfx : String
  command : String
  argName : String
  tokens : List String
  argValues : VMap

/-- `ParamPlan` (commands.py): the compiled plan for one declared argument.
`completer` stands for `definition.get_completer()`; the automatic
path-listing and history completers are external collaborators, so only an
explicitly attached completer function is modelled.  `rep` is the source's
`repeat` field. -/
structure ParamPlan where
  name : String
  flag : Option String
  convert : String → Option Prim
  default : Value
  required : Bool
  rep : Bool
  prompt : Bool
  multiline : Bool
  history : Bool
  completer : Option (Ctx → List String)

/-- `Arg`/`Opt` declaration (app.py).  `isOpt` records whether the
declaration is of the `Opt` variant. -/
structure ArgDef where
  name : String
  ty : ConvKind := .kStr
  completer : Option (Ctx → List String) := none
  default : Value := .vNone
  history : Bool := false
  prompt : Bool := false
  rep : Bool := false
  multiline : Bool := false
  isOpt : Bool := false

/-- `CommandSpec.from_args` (commands.py): split the declarations into
requireds (no default, not of the optional variant) and optionals, requireds
first, preserving declaration order within each group; optionals get a
`--name` flag. -/
def fromArgs (args : List ArgDef) : List ParamPlan :=
  let isOptional := fun (a : ArgDef) => a.isOpt || a.default ≠ .vNone
  let requireds := args.filter (fun a => !(isOptional a))
  let optionals := args.filter (fun a => isOptional a)
  requireds.map (fun a =>
    { name := a.name, flag := none, convert := converterFor a.ty, default := .vNone,
      required := true, rep := a.rep, prompt := a.prompt, multiline := a.multiline,
      history := a.history, completer := a.completer })
  ++ optionals.map (fun o =>
    { name := o.name, flag := some ("--" ++ o.name), convert := converterFor o.ty,
      default := o.default, required := false, rep := o.rep, prompt := o.prompt,
      multiline := o.multiline, history := o.history, completer := o.completer })

/-- One runtime binding entry of `CommandSpec.runtime_plan` (commands.py):
the plan, the `provided` flag and the accumulated `value`. -/
structure RtEntry where
  plan : ParamPlan
  provided : Bool
  value : Value

/-- `CommandSpec.runtime_plan`: fresh runtime state with `value` the empty
list for repeat declarations and `None` otherwise. -/
def runtimePlan (params : List ParamPlan) : List RtEntry :=
  params.map fun p =>
    { plan := p, provided := false, value := if p.rep then .vList [] else .vNone }

/-- The default-initialisation loop of `CommandSpec.parse` (lines 145-161):
every non-required entry gets its default into the value map and into the
entry (a repeat default becomes a list copy, a scalar default a singleton,
a `None` default the empty list). -/
def applyDefaults : List RtEntry → VMap → List RtEntry × VMap
  | [], values => ([], values)
  | e :: rs, values =>
    if e.plan.required then
      let rec' := applyDefaults rs values
      (e :: rec'.1, rec'.2)
    else
      let dv : Value :=
        if e.plan.rep then
          match e.plan.default with
          | .vNone => .vList []
          | .vList l => .vList l
          | .prim p => .vList [p]
        else e.plan.default
      let rec' := applyDefaults rs (vset values e.plan.name dv)
      ({ e with value := dv } :: rec'.1, rec'.2)

/-- Length of the leading run of entries whose `f`-flag is set. -/
def providedRunLen {α : Type} (f : α → Bool) : List α → Nat
  | [] => 0
  | e :: rs => if f e then providedRunLen f rs + 1 else 0

/-- `next_pos_index` (commands.py, both in `parse` and in the completer):
first index at or after `start` whose entry is not yet provided; the while
loop is the run length of provided entries starting at `start`. -/
def nextPosIndex (rt : List RtEntry) (start : Nat) : Nat :=
  start + providedRunLen RtEntry.provided (rt.drop start)

/-- Helper for `plan_by_flag` lookup: the dict comprehension keeps, for each
truthy flag string, the **last** entry carrying it, together with its index. -/
def flagIdxAux (key : String) : List RtEntry → Nat → Option (Nat × RtEntry)
  | [], _ => none
  | e :: rs, i =>
    match flagIdxAux key rs (i + 1) with
    | some r => some r
    | none => if e.plan.flag = some key then some (i, e) else none

/-- `plan_by_flag.get(key)` (commands.py line 141): entries with a falsy flag
(`None` or the empty string) are not in the dict. -/
def flagIdx? (rt : List RtEntry) (key : String) : Option (Nat × RtEntry) :=
  if key = "" then none else flagIdxAux key rt 0

/-- Append a converted scalar onto an entry value (`entry.setdefault("value",
[]).append(converted)`); in reachable states the value of a repeat entry is
always a list, the fallback only totalises. -/
def entryAppendVal (v : Value) (p : Prim) : Value :=
  match v with
  | .vList l => .vList (l ++ [p])
  | _ => .vList [p]

/-- The shared binding update for one converted token (commands.py lines
187-195 and 210-218, entry part): repeat entries append, others overwrite,
and the entry becomes provided. -/
def bindEntry (e : RtEntry) (p : Prim) : RtEntry :=
  { e with provided := true,
           value := if e.plan.rep then entryAppendVal e.value p else .prim p }

/-- The shared binding update on the value map for one converted token. -/
def bindValues (values : VMap) (e : RtEntry) (p : Prim) : VMap :=
  if e.plan.rep then vappend values e.plan.name p
  else vset values e.plan.name (.prim p)

/-- State returned by the token scan: runtime entries, value map, cursor. -/
abbrev ScanState := List RtEntry × VMap × Nat

/-- The token scanning loop of `CommandSpec.parse` (commands.py lines
169-224).  A `--` token is a flag: split on the first `=`, else consume the
next token as its value; a plain token binds to the next unprovided entry,
where a non-repeat multiline entry swallows all remaining tokens
space-joined (Python then sets `i = len(argv)`, so the loop ends and we
return the state directly). -/
def scanTokens (rt : List RtEntry) (values : VMap) (posCursor : Nat) :
    List String → Except String ScanState
  | [] => .ok (rt, values, posCursor)
  | tok :: rest =>
    if startsDashDash tok then
      let key := (splitFlag tok).1
      match flagIdx? rt key with
      | none => .error ("Unknown option: " ++ key)
      | some (j, e) =>
        match (splitFlag tok).2 with
        | some raw =>
          match e.plan.convert raw with
          | none => .error ("Invalid value for " ++ key)
          | some p =>
            scanTokens (rt.set j (bindEntry e p)) (bindValues values e p) posCursor rest
        | none =>
          match rest with
          | [] => .error ("Option " ++ key ++ " requires a value")
          | raw :: rest' =>
            match e.plan.convert raw with
            | none => .error ("Invalid value for " ++ key)
            | some p =>
              scanTokens (rt.set j (bindEntry e p)) (bindValues values e p) posCursor rest'
    else
      let pc := nextPosIndex rt posCursor
      match rt[pc]? with
      | none => .error "Too many positional arguments"
      | some e =>
        if e.plan.multiline && !e.plan.rep then
          match e.plan.convert (String.intercalate " " (tok :: rest)) with
          | none => .error ("Invalid value for " ++ e.plan.name)
          | some p =>
            .ok (rt.set pc (bindEntry e p), bindValues values e p, pc + 1)
        else
          match e.plan.convert tok with
          | none => .error ("Invalid value for " ++ e.plan.name)
          | some p =>
            scanTokens (rt.set pc (bindEntry e p)) (bindValues values e p)
              (if e.plan.rep then pc else pc + 1) rest

/-- Names of required-but-unset entries, in runtime (= declaration) order
(commands.py lines 226-228 and 287-291). -/
def missingRequired (rt : List RtEntry) : List String :=
  (rt.filter (fun e => e.plan.required && !e.provided)).map (fun e => e.plan.name)

/-- The `needs_prompt` gate list is non-empty (commands.py lines 229-237). -/
def needsPromptNonempty (rt : List RtEntry) (interactive : Bool) : Bool :=
  rt.any (fun e => e.plan.prompt && (!e.provided || (interactive && e.plan.multiline)))

/-- Indices of the entries collected into `to_prompt` (commands.py lines
240-248): unset required-or-promptable entries, plus promptable multiline
entries even when already set. -/
def toPromptIdxs (rt : List RtEntry) : List Nat :=
  ((List.range rt.length).filter (fun j =>
    match rt[j]? with
    | none => false
    | some e =>
      ((e.plan.required || e.plan.prompt) && !e.provided)
        || (e.plan.prompt && e.plan.multiline)))

/-- The interactive resolver: Python's `prompt_fn(plan, default_text)`, with
`none` the cancellation sentinel. -/
abbrev PromptFn := ParamPlan → Option String → Option String

/-- The pre-fill text offered by a prompt (commands.py lines 252-261): the
current value when it is neither `None` nor empty (comma-joined for repeat
entries), else the declaration's static default, else nothing. -/
def defaultTextOf (e : RtEntry) : Option String :=
  let emptyish := fun (v : Value) => v = .vNone || v = .vList []
  if !emptyish e.value then
    some (if e.plan.rep then
            (match e.value with
             | .vList l => String.intercalate ", " (l.map strOfPrim)
             | .prim p => strOfPrim p
             | .vNone => "")
          else strOfValue e.value)
  else if !emptyish e.plan.default then some (strOfValue e.plan.default)
  else none

/-- The interactive resolution loop of `CommandSpec.parse` (commands.py
lines 249-286), one entry index at a time. -/
def promptLoop (pf : PromptFn) :
    List Nat → List RtEntry → VMap → Except String (List RtEntry × VMap)
  | [], rt, values => .ok (rt, values)
  | j :: js, rt, values =>
    match rt[j]? with
    | none => promptLoop pf js rt values
    | some e =>
      let plan := e.plan
      match pf plan (defaultTextOf e) with
      | none => .error "Canceled"
      | some ans =>
        if ans = "" && !plan.required then
          promptLoop pf js (rt.set j { e with provided := true }) values
        else if plan.rep then
          let rawItems := splitCommaStrip ans
          match rawItems.mapM plan.convert with
          | none => .error ("Invalid value for " ++ plan.name)
          | some items =>
            if items = [] && plan.required then .error ("Missing: " ++ plan.name)
            else if items ≠ [] then
              promptLoop pf js
                (rt.set j { e with provided := true, value := .vList items })
                (vset values plan.name (.vList items))
            else
              promptLoop pf js (rt.set j { e with provided := true }) values
        else
          match plan.convert ans with
          | none => .error ("Invalid value for " ++ plan.name)
          | some p =>
            promptLoop pf js (rt.set j { e with provided := true, value := .prim p })
              (vset values plan.name (.prim p))

/-- The tail of `CommandSpec.parse` after token consumption (commands.py
lines 226-299): interactive resolution when permitted, then the
missing-required check. -/
def afterScan (rt : List RtEntry) (values : VMap) (promptFn : Option PromptFn)
    (interactive : Bool) : Except String VMap :=
  let missing := missingRequired rt
  match promptFn with
  | some pf =>
    if (!missing.isEmpty || needsPromptNonempty rt interactive) && interactive then
      match promptLoop pf (toPromptIdxs rt) rt values with
      | .error e => .error e
      | .ok (rt', values') =>
        let missing' := missingRequired rt'
        if !missing'.isEmpty then
          .error ("Missing: " ++ String.intercalate " " missing')
        else .ok values'
    else if !missing.isEmpty then
      .error ("Missing: " ++ String.intercalate " " missing)
    else .ok values
  | none =>
    if !missing.isEmpty then
      .error ("Missing: " ++ String.intercalate " " missing)
    else .ok values

/-- `CommandSpec.parse` (commands.py lines 131-299).  `.error msg` models
`on_error(msg)` followed by `return None`; `.ok` is the returned binding
map. -/
def parse (params : List ParamPlan) (argv : List String)
    (promptFn : Option PromptFn) (interactive : Bool) : Except String VMap :=
  let rt0 := runtimePlan params
  let init := applyDefaults rt0 []
  match scanTokens init.1 init.2 (nextPosIndex init.1 0) argv with
  | .error e => .error e
  | .ok (rt, values, _) => afterScan rt values promptFn interactive

/-- `CommandSpec.history_entries` (commands.py lines 123-129) combined with
the `str(recorded_value)` rendering of `App.command.handler` (app.py line
272): one `(command, argument, text)` record per history-enabled declaration
whose value is non-null. -/
def historyEntries (cmdName : String) (params : List ParamPlan) (values : VMap) :
    List (String × String × String) :=
  params.filterMap fun p =>
    if p.history then
      match vget? values p.name with
      | some v => if v ≠ .vNone then some (cmdName, p.name, strOfValue v) else none
      | none => none
    else none

/-- Observable effects of one command invocation: the history records added
and the binding map the handler is called with (`none` when it never runs). -/
structure Outcome where
  histAdds : List (String × String × String)
  handlerArgs : Option VMap
deriving DecidableEq

set_option linter.unusedVariables false in
/-- Observable History-Store and wrapped-function effects of one invocation
of the `handler` closure registered by `App.command` (app.py lines 250-284).
`handler` is an `async def` whose body runs the **synchronous**
`CommandSpec.parse` and then `await`s its result (app.py line 262).  A dict
or `None` is not awaitable, so whenever the coroutine actually runs,
parsing completes (its error-sink and prompting effects happen, modelled by
`parse`) and then a `TypeError` is raised — before the `values is None`
check, before the history loop (app.py lines 271-272) and before the
wrapped-function call; and `dispatch` (commands.py line 502) does not await
the coroutine it creates, in which case the body does not run at all.  On
either path the History Store is never mutated and the wrapped function is
never invoked: the effects coded on app.py lines 271-284 are unreachable,
on the success branch as much as on the failure branch. -/
def runCommandHandler (cmdName : String) (params : List ParamPlan)
    (argv : List String) (promptFn : Option PromptFn) (interactive : Bool) : Outcome :=
  match parse params argv promptFn interactive with
  | .error _ => { histAdds := [], handlerArgs := none }
  | .ok _ => { histAdds := [], handlerArgs := none }

/-- One entry of `CommandSpec.completion_plan` (commands.py lines 111-121):
the plan and a fresh `provided` flag. -/
structure CEntry where
  plan : ParamPlan
  provided : Bool

/-- `CommandSpec.completion_plan`. -/
def completionPlan (params : List ParamPlan) : List CEntry :=
  params.map fun p => { plan := p, provided := false }

/-- `next_pos_index` of the completion scan (commands.py lines 369-373). -/
def cNextPos (pl : List CEntry) (start : Nat) : Nat :=
  start + providedRunLen CEntry.provided (pl.drop start)

/-- Flag lookup of the completion scan (same last-entry-wins dict). -/
def cFlagIdxAux (key : String) : List CEntry → Nat → Option (Nat × CEntry)
  | [], _ => none
  | e :: rs, i =>
    match cFlagIdxAux key rs (i + 1) with
    | some r => some r
    | none => if e.plan.flag = some key then some (i, e) else none

/-- `plan_by_flag.get` of the completion scan (commands.py lines 365-367). -/
def cFlagIdx? (pl : List CEntry) (key : String) : Option (Nat × CEntry) :=
  if key = "" then none else cFlagIdxAux key pl 0

/-- Raw (unconverted) binding of the completion scan (commands.py lines
409-413 and 421-425): repeat plans accumulate the raw strings, others keep
the last. -/
def cbind (parsed : VMap) (p : ParamPlan) (raw : String) : VMap :=
  if p.rep then vappend parsed p.name (.pStr raw)
  else vset parsed p.name (.prim (.pStr raw))

/-- The restricted binding scan of `SlashCompleter.get_completions`
(commands.py lines 391-430) over the completed tokens: like the parser's
scan but without conversion, never failing — unknown flags are skipped, a
flag missing its value or an exhausted positional plan just stops the scan.
Returns the plan entries, the sibling-value snapshot and the plan of the
last entry bound. -/
def compScan (pl : List CEntry) (parsed : VMap) (posCursor : Nat)
    (lastP : Option ParamPlan) : List String → List CEntry × VMap × Option ParamPlan
  | [] => (pl, parsed, lastP)
  | tok :: rest =>
    if startsDashDash tok then
      let key := (splitFlag tok).1
      match cFlagIdx? pl key with
      | none => compScan pl parsed posCursor lastP rest
      | some (j, ce) =>
        match (splitFlag tok).2 with
        | some raw =>
          compScan (pl.set j { ce with provided := true }) (cbind parsed ce.plan raw)
            posCursor (some ce.plan) rest
        | none =>
          match rest with
          | [] => (pl, parsed, lastP)
          | raw :: rest' =>
            compScan (pl.set j { ce with provided := true }) (cbind parsed ce.plan raw)
              posCursor (some ce.plan) rest'
    else
      let pc := cNextPos pl posCursor
      match pl[pc]? with
      | none => (pl, parsed, lastP)
      | some ce =>
        compScan (pl.set pc { ce with provided := true }) (cbind parsed ce.plan tok)
          (if ce.plan.rep then pc else pc + 1) (some ce.plan) rest

/-- The in-progress token (commands.py line 379): the last argument token,
where a trailing space contributes an empty token. -/
def activeTokenOf (tokens : List String) (trailing : Bool) : String :=
  (tokens.drop 1 ++ (if trailing then [""] else [])).getLastD ""

/-- The completion filter text (commands.py lines 380-384): empty after a
trailing space, else the active token, and for a flag token that already
contains `=` the substring after the first `=`. -/
def completionPfxOf (tokens : List String) (trailing : Bool) : String :=
  let cp := if trailing then "" else activeTokenOf tokens trailing
  if pyStartsWith cp "--" && hasEq cp then
    match (splitFlag cp).2 with
    | some v => v
    | none => cp
  else cp

/-- Active-declaration resolution and sibling snapshot of
`SlashCompleter.get_completions` (commands.py lines 386-447): run the
restricted scan over the completed tokens, then pick the active plan — the
next unfilled positional after a trailing space, the flag named by an
in-progress `--` token, else the entry bound by the last completed token,
else the next unfilled positional. -/
def completionScan (params : List ParamPlan) (tokens : List String)
    (trailing : Bool) : Option ParamPlan × VMap :=
  let argsTokens := tokens.drop 1 ++ (if trailing then [""] else [])
  let tokensForParse := if trailing && !argsTokens.isEmpty then argsTokens.dropLast
                        else argsTokens
  let pl0 := completionPlan params
  let scanned := compScan pl0 [] (cNextPos pl0 0) none tokensForParse
  let plE := scanned.1
  let parsed := scanned.2.1
  let lastP := scanned.2.2
  let at0 := activeTokenOf tokens trailing
  let activePlan : Option ParamPlan :=
    if trailing then (plE[cNextPos plE 0]?).map CEntry.plan
    else if startsDashDash at0 then
      (cFlagIdx? plE ((splitFlag at0).1)).map (fun je => je.2.plan)
    else
      match lastP with
      | some p => some p
      | none => (plE[cNextPos plE 0]?).map CEntry.plan
  (activePlan, parsed)

/-- The candidates returned by the active declaration's suggestion source,
before the engine-level filtering (commands.py lines 449-469). -/
def rawSuggestions (params : List ParamPlan) (tokens : List String)
    (trailing : Bool) : List String :=
  match completionScan params tokens trailing with
  | (none, _) => []
  | (some p, parsed) =>
    match p.completer with
    | none => []
    | some f =>
      f { pfx := completionPfxOf tokens trailing, command := tokens.headD "",
          argName := p.name, tokens := tokens, argValues := parsed }

/-- The texts yielded by `SlashCompleter.get_completions` past the
command-name stage (commands.py lines 356-482): the suggestion source's
candidates, where a candidate is skipped when the filter text is non-empty,
the active token is not a flag token lacking `=`, and the candidate does not
start with the filter text. -/
def slashComplete (params : List ParamPlan) (tokens : List String)
    (trailing : Bool) : List String :=
  let cp := completionPfxOf tokens trailing
  let at0 := activeTokenOf tokens trailing
  (rawSuggestions params tokens trailing).filter
    (fun s => !(cp ≠ "" && !(startsDashDash at0 && !hasEq at0) && !pyStartsWith s cp))

/-- The last element of a repeat snapshot value, the empty string when the
list is empty or the parent is unbound (`completers.dependent`, lines
83-87); the completion scan only ever stores strings. -/
def lastStrOf : Value → String
  | .vNone => ""
  | .prim p => strOfPrim p
  | .vList l =>
    match l.getLast? with
    | some p => strOfPrim p
    | none => ""

/-- `completers.dependent` (completers.py lines 78-92): read the parent
argument's value from the sibling snapshot (last element of a list, empty
string when absent), fetch candidates for it, and keep those starting with
the prefix. -/
def dependent (parentArg : String) (fetch : String → Ctx → List String) :
    Ctx → List String :=
  fun ctx =>
    let parentValue := (vget? ctx.argValues parentArg).getD (.prim (.pStr ""))
    let pv := lastStrOf parentValue
    (fetch pv ctx).filter (fun item => pyStartsWith item ctx.pfx)

/-- Specification instrumentation for the token scan: the sequence of
successful bindings `(entry index, converted scalar)` in encounter order.
It repeats exactly the decisions of `scanTokens` — same flag lookup, same
positional cursor, same entry updates — but records which entry each
converted token lands on instead of threading the value map. -/
def scanBindings (rt : List RtEntry) (posCursor : Nat) :
    List String → List (Nat × Prim)
  | [] => []
  | tok :: rest =>
    if startsDashDash tok then
      let key := (splitFlag tok).1
      match flagIdx? rt key with
      | none => []
      | some (j, e) =>
        match (splitFlag tok).2 with
        | some raw =>
          match e.plan.convert raw with
          | none => []
          | some p => (j, p) :: scanBindings (rt.set j (bindEntry e p)) posCursor rest
        | none =>
          match rest with
          | [] => []
          | raw :: rest' =>
            match e.plan.convert raw with
            | none => []
            | some p => (j, p) :: scanBindings (rt.set j (bindEntry e p)) posCursor rest'
    else
      let pc := nextPosIndex rt posCursor
      match rt[pc]? with
      | none => []
      | some e =>
        if e.plan.multiline && !e.plan.rep then
          match e.plan.convert (String.intercalate " " (tok :: rest)) with
          | none => []
          | some p => [(pc, p)]
        else
          match e.plan.convert tok with
          | none => []
          | some p =>
            (pc, p) :: scanBindings (rt.set pc (bindEntry e p))
              (if e.plan.rep then pc else pc + 1) rest

/-- The converted scalars bound to entry `j` during the scan, in encounter
order. -/
def bindingsFor (rt : List RtEntry) (posCursor : Nat) (ts : List String)
    (j : Nat) : List Prim :=
  ((scanBindings rt posCursor ts).filter (fun b => b.1 = j)).map (fun b => b.2)

/-! ### Example plans used by the concrete claims -/

/-- The spec's scenario plan: `{required name: string, optional hours: int
default 1}`. -/
def demoTaskParams : List ParamPlan := fromArgs [
  { name := "name" },
  { name := "hours", ty := .kInt, default := .prim (.pInt 1), isOpt := true }]

/-- A single required, prompt-eligible string declaration. -/
def demoPromptParams : List ParamPlan := fromArgs [{ name := "name", prompt := true }]

/-- A single optional, prompt-eligible int declaration with default 10. -/
def demoOptPromptParams : List ParamPlan := fromArgs [
  { name := "limit", ty := .kInt, default := .prim (.pInt 10), isOpt := true,
    prompt := true }]

/-- A resolver that always answers with the empty string. -/
def emptyAnswer : PromptFn := fun _ _ => some ""

/-- A single required string declaration with `history = True`, the plan of
the repository's own history test (`/task` with `Arg("name", str,
history=True)`, tests/test_history_and_errors.py). -/
def histTaskParams : List ParamPlan :=
  fromArgs [{ name := "name", history := true }]

/-- A required multiline string declaration, as compiled by `from_args`. -/
def textPlan : ParamPlan :=
  { name := "text", flag := none, convert := converterFor .kStr, default := .vNone,
    required := true, rep := false, prompt := false, multiline := true,
    history := false, completer := none }

/-- Fresh runtime state for the multiline example. -/
def textRt : List RtEntry :=
  (applyDefaults (runtimePlan [textPlan]) []).1

/-- The runtime entry for `text` before any binding. -/
def textEntry : RtEntry :=
  { plan := textPlan, provided := false, value := .vNone }

/-- The compiled required `name` declaration of the scenario plan. -/
def demoNamePlan : ParamPlan :=
  { name := "name", flag := none, convert := converterFor .kStr, default := .vNone,
    required := true, rep := false, prompt := false, multiline := false,
    history := false, completer := none }

/-- The compiled optional `hours` declaration of the scenario plan. -/
def demoHoursPlan : ParamPlan :=
  { name := "hours", flag := some "--hours", convert := converterFor .kInt,
    default := .prim (.pInt 1), required := false, rep := false, prompt := false,
    multiline := false, history := false, completer := none }

/-- A mid-scan runtime state: the required declaration already filled
positionally, the optional one still at its default. -/
def rt10 : List RtEntry := [
  { plan := demoNamePlan, provided := true, value := .prim (.pStr "Doc") },
  { plan := demoHoursPlan, provided := false, value := .prim (.pInt 1) }]

/-- The unfilled optional entry of `rt10`. -/
def rt10e1 : RtEntry :=
  { plan := demoHoursPlan, provided := false, value := .prim (.pInt 1) }

/-- An optional repeat int declaration `tags`, as compiled by `from_args`. -/
def tagsPlan : ParamPlan :=
  { name := "tags", flag := some "--tags", convert := converterFor .kInt,
    default := .vNone, required := false, rep := true, prompt := false,
    multiline := false, history := false, completer := none }

/-- An optional string declaration `label`, as compiled by `from_args`. -/
def labelPlan : ParamPlan :=
  { name := "label", flag := some "--label", convert := converterFor .kStr,
    default := .vNone, required := false, rep := false, prompt := false,
    multiline := false, history := false, completer := none }

/-- The plan for the repeat-accumulation example. -/
def params6 : List ParamPlan := [tagsPlan, labelPlan]

/-- Fresh runtime state of the repeat-accumulation example. -/
def rt6 : List RtEntry := (applyDefaults (runtimePlan params6) []).1

/-- Fresh value map of the repeat-accumulation example. -/
def vals6 : VMap := (applyDefaults (runtimePlan params6) []).2

/-- Tokens binding `tags` twice (space and `=` form) and `label` twice. -/
def argv6 : List String :=
  ["--tags", "1", "--tags=2", "--label", "x", "--label=y"]

/-- The scan result of the repeat-accumulation example. -/
def scan6out : ScanState :=
  match scanTokens rt6 vals6 (nextPosIndex rt6 0) argv6 with
  | .ok o => o
  | .error _ => ([], [], 0)

/-- The fresh `tags` entry of `rt6`. -/
def rt6e0 : RtEntry := { plan := tagsPlan, provided := false, value := .vList [] }

/-- The fresh `label` entry of `rt6`. -/
def rt6e1 : RtEntry := { plan := labelPlan, provided := false, value := .vNone }

/-- The spec's dependent fetch table `{alpha: [core, ml], beta: [etl]}`. -/
def fetchTable : String → Ctx → List String := fun pv _ =>
  if pv = "alpha" then ["core", "ml"] else if pv = "beta" then ["etl"] else []

/-- A command with a required `project` argument followed by a `module`
argument whose completer depends on `project`. -/
def depParams : List ParamPlan := fromArgs [
  { name := "project" },
  { name := "module", completer := some (dependent "project" fetchTable) }]

/-- A command with a required `module` argument (dependent completer) and an
optional repeatable `--project` flag. -/
def depRepParams : List ParamPlan := fromArgs [
  { name := "module", completer := some (dependent "project" fetchTable) },
  { name := "project", isOpt := true, rep := true }]

/-- An optional `--hours` flag whose suggestion source always offers `foo`,
regardless of the prefix. -/
def constParams : List ParamPlan := fromArgs [
  { name := "hours", ty := .kInt, default := .prim (.pInt 1), isOpt := true,
    completer := some (fun _ => ["foo"]) }]

/-- A completion context whose sibling snapshot binds a repeatable parent
to the empty list. -/
def emptyParentCtx : Ctx :=
  { pfx := "", command := "/cmd", argName := "module", tokens := [],
    argValues := [("project", .vList [])] }

/-! ### Helper lemmas -/

theorem mk_data_eq (s : String) : String.mk s.data = s := rfl

theorem splitEqAux_of_not_mem {l : List Char} (h : '=' ∉ l) : splitEqAux l = none := by
  induction l with
  | nil => rfl
  | cons c cs ih =>
    have hc : ¬c = '=' := fun hc => h (hc ▸ List.mem_cons_self c cs)
    have hcs : '=' ∉ cs := fun hm => h (List.mem_cons_of_mem c hm)
    simp [splitEqAux, hc, ih hcs]

theorem splitEqAux_append {l₁ l₂ : List Char} (h : '=' ∉ l₁) :
    splitEqAux (l₁ ++ '=' :: l₂) = some (l₁, l₂) := by
  induction l₁ with
  | nil => simp [splitEqAux]
  | cons c cs ih =>
    have hc : ¬c = '=' := fun hc => h (hc ▸ List.mem_cons_self c cs)
    have hcs : '=' ∉ cs := fun hm => h (List.mem_cons_of_mem c hm)
    simp [splitEqAux, hc, ih hcs]

theorem splitFlag_of_not_mem {s : String} (h : '=' ∉ s.data) : splitFlag s = (s, none) := by
  simp [splitFlag, splitEqAux_of_not_mem h]

theorem splitFlag_key_value (k v : String) (h : '=' ∉ k.data) :
    splitFlag (k ++ "=" ++ v) = (k, some v) := by
  have hd : (k ++ "=" ++ v).data = k.data ++ '=' :: v.data := by
    simp [String.data_append]
  simp [splitFlag, hd, splitEqAux_append h, mk_data_eq]

theorem startsDashDash_concat (n : String) : startsDashDash ("--" ++ n) = true := by
  simp [startsDashDash, pyStartsWith, String.data_append, List.isPrefixOf]

theorem set_getElem?_self {α : Type} :
    ∀ (l : List α) (i : Nat) (b : α), l[i]? = some b → l.set i b = l := by
  intro l
  induction l with
  | nil => intro i b h; simp at h
  | cons a as ih =>
    intro i b h
    cases i with
    | zero => simp_all
    | succ i => simpa using ih i b (by simpa using h)

theorem flagIdxAux_get (key : String) :
    ∀ (rt : List RtEntry) (i j : Nat) (e : RtEntry),
      flagIdxAux key rt i = some (j, e) → ∃ k, j = i + k ∧ rt[k]? = some e := by
  intro rt
  induction rt with
  | nil => intro i j e h; simp [flagIdxAux] at h
  | cons e0 rs ih =>
    intro i j e h
    simp only [flagIdxAux] at h
    cases hr : flagIdxAux key rs (i + 1) with
    | some r =>
      simp only [hr] at h
      obtain ⟨k, hk, hget⟩ := ih (i + 1) j e (hr.trans h)
      exact ⟨k + 1, by omega, by simpa using hget⟩
    | none =>
      simp only [hr] at h
      split at h
      · obtain ⟨rfl, rfl⟩ : i = j ∧ e0 = e := by simpa [Prod.ext_iff] using h
        exact ⟨0, by omega, by simp⟩
      · simp at h

theorem flagIdx_get {rt : List RtEntry} {key : String} {j : Nat} {e : RtEntry}
    (h : flagIdx? rt key = some (j, e)) : rt[j]? = some e := by
  unfold flagIdx? at h
  split at h
  · simp at h
  · obtain ⟨k, hk, hget⟩ := flagIdxAux_get key rt 0 j e h
    simpa [hk] using hget

/-- Unfolding equation for `parse` with its local lets expanded. -/
theorem parse_def (params : List ParamPlan) (argv : List String)
    (pf : Option PromptFn) (i : Bool) :
    parse params argv pf i =
      match scanTokens (applyDefaults (runtimePlan params) []).1
          (applyDefaults (runtimePlan params) []).2
          (nextPosIndex (applyDefaults (runtimePlan params) []).1 0) argv with
      | .error e => .error e
      | .ok (rt, values, _) => afterScan rt values pf i := rfl

/-! ### Claims -/

/-- C5: for the plan `{required name: string, optional hours: int default
1}`, `parse` maps `["Write","--hours","3"]` to `{name:"Write", hours:3}`,
`["Code","--hours=5"]` to `{name:"Code", hours:5}` and `["Doc"]` to
`{name:"Doc", hours:1}`; before token scanning the optional declaration is
already initialised to its default in the value map and in its runtime
entry, while the required declaration starts unset. -/
theorem c5_scenario_defaults :
    parse demoTaskParams ["Write", "--hours", "3"] none false
      = .ok [("hours", .prim (.pInt 3)), ("name", .prim (.pStr "Write"))]
    ∧ parse demoTaskParams ["Code", "--hours=5"] none false
      = .ok [("hours", .prim (.pInt 5)), ("name", .prim (.pStr "Code"))]
    ∧ parse demoTaskParams ["Doc"] none false
      = .ok [("hours", .prim (.pInt 1)), ("name", .prim (.pStr "Doc"))]
    ∧ (applyDefaults (runtimePlan demoTaskParams) []).2
      = [("hours", .prim (.pInt 1))]
    ∧ (applyDefaults (runtimePlan demoTaskParams) []).1.map
        (fun e => (e.plan.name, e.provided, e.value))
      = [("name", false, .vNone), ("hours", false, .prim (.pInt 1))] :=
  ⟨rfl, rfl, rfl, rfl, rfl⟩

/-- C1 (failing part): with interactive resolution enabled, a resolver that
answers the empty string on the required, prompt-eligible string declaration
`name` does **not** leave the field unset — the parse succeeds and binds
`name` to the empty string, so no `MissingRequired` error is reported.  The
optional half of the claim does hold: the same empty answer on an optional
declaration leaves its default value unchanged. -/
theorem c1_required_empty_response_binds_empty :
    parse demoPromptParams [] (some emptyAnswer) true
      = .ok [("name", .prim (.pStr ""))]
    ∧ parse demoOptPromptParams [] (some emptyAnswer) true
      = .ok [("limit", .prim (.pInt 10))] :=
  ⟨rfl, rfl⟩

/-- C2 (failing part): on the history test's own input the parse fully
succeeds with the binding map `{name: "Foo"}`, and `history_entries` over
that map would produce exactly the record `(/task, name, Foo)` the spec and
the repository's test expect — yet the handler's observable outcome holds
no history record and no wrapped-function invocation, because the handler
coroutine `await`s the synchronous parse result (TypeError before the
history loop) and `dispatch` never awaits the coroutine.  The failure half
of the claim does hold: a failing parse (here, an unknown option) returns
no binding map and likewise produces no history record and no handler
call. -/
theorem c2_success_effects_unreachable :
    parse histTaskParams ["Foo"] none false = .ok [("name", .prim (.pStr "Foo"))]
    ∧ historyEntries "/task" histTaskParams [("name", .prim (.pStr "Foo"))]
      = [("/task", "name", "Foo")]
    ∧ runCommandHandler "/task" histTaskParams ["Foo"] none false
      = { histAdds := [], handlerArgs := none }
    ∧ parse demoTaskParams ["--x", "1"] none false = .error "Unknown option: --x"
    ∧ runCommandHandler "/task" demoTaskParams ["--x", "1"] none false
      = { histAdds := [], handlerArgs := none } :=
  ⟨rfl, rfl, rfl, rfl, rfl⟩

/-- One scan step treats `--N V` and `--N=V` identically: both resolve the
same flag key, convert the same raw text and leave the same state. -/
theorem scan_flag_space_eq_flag_eq (rt : List RtEntry) (values : VMap) (pc : Nat)
    (n v : String) (h : '=' ∉ n.data) :
    scanTokens rt values pc ["--" ++ n, v]
      = scanTokens rt values pc ["--" ++ n ++ "=" ++ v] := by
  have hno : '=' ∉ ("--" ++ n).data := by
    simp only [String.data_append]
    intro hm
    rcases List.mem_append.mp hm with hm | hm
    · simp [show ("--" : String).data = ['-', '-'] from rfl] at hm
    · exact h hm
  have hsd : startsDashDash ("--" ++ n) = true := startsDashDash_concat n
  have hsd2 : startsDashDash ("--" ++ n ++ "=" ++ v) = true := by
    simp only [startsDashDash, pyStartsWith, String.data_append]
    simp [show ("--" : String).data = ['-', '-'] from rfl, List.isPrefixOf]
  have hsf : splitFlag ("--" ++ n) = ("--" ++ n, none) := splitFlag_of_not_mem hno
  have hsf2 : splitFlag ("--" ++ n ++ "=" ++ v) = ("--" ++ n, some v) :=
    splitFlag_key_value ("--" ++ n) v hno
  simp only [scanTokens, hsd, hsd2, hsf, hsf2, if_true]

/-- C4: for every plan, every declaration name `n` (names contain no `=`)
and every value string `v`, parsing the two tokens `--n v` and parsing the
single token `--n=v` produce identical results, in particular identical
binding maps. -/
theorem c4_flag_space_eq_flag_eq (params : List ParamPlan) (pf : Option PromptFn)
    (interactive : Bool) (n v : String) (h : '=' ∉ n.data) :
    parse params ["--" ++ n, v] pf interactive
      = parse params ["--" ++ n ++ "=" ++ v] pf interactive := by
  rw [parse_def, parse_def, scan_flag_space_eq_flag_eq _ _ _ n v h]

/-- Witness for C4 on the scenario plan: `--hours 3` and `--hours=3` parse
identically. -/
theorem c4_flag_space_eq_flag_eq_witness :
    parse demoTaskParams ["--hours", "3"] none false
      = parse demoTaskParams ["--hours=3"] none false :=
  c4_flag_space_eq_flag_eq demoTaskParams none false "hours" "3" (by decide)

theorem scanTokens_plans_aux :
    ∀ (n : Nat) (ts : List String), ts.length ≤ n →
      ∀ (rt : List RtEntry) (values : VMap) (pc : Nat) (out : ScanState),
        scanTokens rt values pc ts = .ok out →
        out.1.map RtEntry.plan = rt.map RtEntry.plan := by
  intro n
  induction n with
  | zero =>
    intro ts hlen rt values pc out h
    obtain rfl : ts = [] := List.eq_nil_of_length_eq_zero (Nat.le_zero.mp hlen)
    simp only [scanTokens] at h
    obtain rfl : (rt, values, pc) = out := by simpa using h
    rfl
  | succ n ih =>
    intro ts hlen rt values pc out h
    match ts with
    | [] =>
      simp only [scanTokens] at h
      obtain rfl : (rt, values, pc) = out := by simpa using h
      rfl
    | tok :: rest =>
      simp only [scanTokens] at h
      split at h
      · -- flag token
        cases hfi : flagIdx? rt ((splitFlag tok).1) with
        | none => simp [hfi] at h
        | some je =>
          obtain ⟨j, e⟩ := je
          simp only [hfi] at h
          have hget : rt[j]? = some e := flagIdx_get hfi
          have hset : ∀ p, ((rt.set j (bindEntry e p)).map RtEntry.plan)
              = rt.map RtEntry.plan := by
            intro p
            rw [List.map_set]
            exact set_getElem?_self _ _ _ (by simp [hget, bindEntry])
          cases hsf : (splitFlag tok).2 with
          | some raw =>
            simp only [hsf] at h
            cases hcv : e.plan.convert raw with
            | none => simp [hcv] at h
            | some p =>
              simp only [hcv] at h
              have := ih rest (by simp at hlen; omega) _ _ _ _ h
              rw [this, hset]
          | none =>
            simp only [hsf] at h
            cases rest with
            | nil => simp at h
            | cons raw rest' =>
              cases hcv : e.plan.convert raw with
              | none => simp [hcv] at h
              | some p =>
                simp only [hcv] at h
                have := ih rest' (by simp at hlen; omega) _ _ _ _ h
                rw [this, hset]
      · -- positional token
        cases hg : rt[nextPosIndex rt pc]? with
        | none => simp [hg] at h
        | some e =>
          simp only [hg] at h
          have hset : ∀ p, ((rt.set (nextPosIndex rt pc) (bindEntry e p)).map RtEntry.plan)
              = rt.map RtEntry.plan := by
            intro p
            rw [List.map_set]
            exact set_getElem?_self _ _ _ (by simp [hg, bindEntry])
          split at h
          · cases hcv : e.plan.convert (String.intercalate " " (tok :: rest)) with
            | none => simp [hcv] at h
            | some p =>
              simp only [hcv] at h
              obtain rfl : (rt.set (nextPosIndex rt pc) (bindEntry e p),
                  bindValues values e p, nextPosIndex rt pc + 1) = out := by simpa using h
              exact hset p
          · cases hcv : e.plan.convert tok with
            | none => simp [hcv] at h
            | some p =>
              simp only [hcv] at h
              have := ih rest (by simp at hlen; omega) _ _ _ _ h
              rw [this, hset]

/-- The token scan never changes which plan sits at which runtime index. -/
theorem scanTokens_plans {ts : List String} {rt : List RtEntry} {values : VMap}
    {pc : Nat} {out : ScanState} (h : scanTokens rt values pc ts = .ok out) :
    out.1.map RtEntry.plan = rt.map RtEntry.plan :=
  scanTokens_plans_aux ts.length ts le_rfl rt values pc out h

theorem applyDefaults_plans :
    ∀ (rt : List RtEntry) (values : VMap),
      (applyDefaults rt values).1.map RtEntry.plan = rt.map RtEntry.plan := by
  intro rt
  induction rt with
  | nil => intro values; rfl
  | cons e rs ih =>
    intro values
    simp only [applyDefaults]
    split <;> simp [ih]

/-- C3: when interactive resolution is disabled and the token scan leaves at
least one required declaration unset, `parse` fails with the `Missing:`
error listing exactly the unset required names space-joined in runtime
order, the handler never runs, and the runtime order is the declaration
order of the plan. -/
theorem c3_missing_required_lists_names (cmdName : String)
    (params : List ParamPlan) (argv : List String) (pf : Option PromptFn)
    (out : ScanState)
    (hscan : scanTokens (applyDefaults (runtimePlan params) []).1
        (applyDefaults (runtimePlan params) []).2
        (nextPosIndex (applyDefaults (runtimePlan params) []).1 0) argv = .ok out)
    (hmiss : missingRequired out.1 ≠ []) :
    parse params argv pf false
      = .error ("Missing: " ++ String.intercalate " " (missingRequired out.1))
    ∧ runCommandHandler cmdName params argv pf false
      = { histAdds := [], handlerArgs := none }
    ∧ out.1.map RtEntry.plan = params := by
  obtain ⟨rt', values', pc'⟩ := out
  have hparse : parse params argv pf false
      = .error ("Missing: " ++ String.intercalate " " (missingRequired rt')) := by
    rw [parse_def, hscan]
    unfold afterScan
    cases pf <;> simp [hmiss]
  refine ⟨hparse, ?_, ?_⟩
  · simp [runCommandHandler, hparse]
  · have h1 := scanTokens_plans hscan
    have h2 := applyDefaults_plans (runtimePlan params) []
    rw [h1, h2]
    simp only [runtimePlan, List.map_map]
    exact List.map_id'' (fun _ => rfl) _

/-- Witness for C3: the scenario plan with no tokens at all leaves `name`
unset, so the parse reports `Missing: name` and the handler does not run. -/
theorem c3_missing_required_lists_names_witness :
    parse demoTaskParams [] none false = .error ("Missing: " ++ String.intercalate " " (missingRequired (applyDefaults (runtimePlan demoTaskParams) []).1))
    ∧ runCommandHandler "/task" demoTaskParams [] none false
      = { histAdds := [], handlerArgs := none }
    ∧ (applyDefaults (runtimePlan demoTaskParams) []).1.map RtEntry.plan
      = demoTaskParams :=
  c3_missing_required_lists_names "/task" demoTaskParams [] none
    ((applyDefaults (runtimePlan demoTaskParams) []).1,
      (applyDefaults (runtimePlan demoTaskParams) []).2, 0) rfl (by decide)

/-- C7: when a non-flag token reaches a positional declaration with
`multiline` set and `repeat` unset, the declaration is bound to the
space-join of **all** remaining tokens (flag-looking tokens included),
converted as one value, and token scanning stops there: on success the scan
returns immediately with the updated state. -/
theorem c7_multiline_swallows_rest (rt : List RtEntry) (values : VMap)
    (pc : Nat) (tok : String) (rest : List String) (e : RtEntry)
    (htok : startsDashDash tok = false)
    (he : rt[nextPosIndex rt pc]? = some e)
    (hml : e.plan.multiline = true) (hrep : e.plan.rep = false) :
    scanTokens rt values pc (tok :: rest)
      = match e.plan.convert (String.intercalate " " (tok :: rest)) with
        | none => .error ("Invalid value for " ++ e.plan.name)
        | some p => .ok (rt.set (nextPosIndex rt pc) (bindEntry e p),
            bindValues values e p, nextPosIndex rt pc + 1) := by
  simp only [scanTokens, htok, Bool.false_eq_true, if_false, he, hml, hrep]
  simp

/-- Witness for C7: a multiline `text` declaration swallows `a --b c` as the
single value `"a --b c"` and the scan returns at once. -/
theorem c7_multiline_swallows_rest_witness :
    scanTokens textRt [] 0 ["a", "--b", "c"]
      = .ok (textRt.set 0 (bindEntry textEntry (.pStr "a --b c")),
          bindValues [] textEntry (.pStr "a --b c"), 1) := by
  have h := c7_multiline_swallows_rest textRt [] 0 "a" ["--b", "c"] textEntry
    rfl rfl rfl rfl
  exact h

/-! ### Run-length lemmas about the positional cursor -/

theorem providedRunLen_le {α : Type} (f : α → Bool) :
    ∀ l : List α, providedRunLen f l ≤ l.length := by
  intro l
  induction l with
  | nil => simp [providedRunLen]
  | cons e rs ih =>
    simp only [providedRunLen, List.length_cons]
    split <;> omega

theorem providedRunLen_get {α : Type} (f : α → Bool) :
    ∀ (l : List α) (e : α), l[providedRunLen f l]? = some e → f e = false := by
  intro l
  induction l with
  | nil => intro e h; simp at h
  | cons e0 rs ih =>
    intro e h
    simp only [providedRunLen] at h
    by_cases h0 : f e0
    · rw [if_pos h0] at h
      exact ih e (by simpa using h)
    · rw [if_neg h0] at h
      obtain rfl : e0 = e := by simpa using h
      simpa using h0

theorem providedRunLen_of_all {α : Type} (f : α → Bool) :
    ∀ l : List α, l.all f = true → providedRunLen f l = l.length := by
  intro l
  induction l with
  | nil => simp [providedRunLen]
  | cons e rs ih =>
    intro h
    simp only [List.all_cons, Bool.and_eq_true] at h
    simp [providedRunLen, h.1, ih h.2]

theorem providedRunLen_lt_of_any {α : Type} (f : α → Bool) :
    ∀ l : List α, l.any (fun e => !f e) = true → providedRunLen f l < l.length := by
  intro l
  induction l with
  | nil => simp
  | cons e rs ih =>
    intro h
    simp only [providedRunLen, List.length_cons]
    by_cases h0 : f e
    · rw [if_pos h0]
      have : rs.any (fun e => !f e) = true := by
        simp only [List.any_cons, h0, Bool.not_true, Bool.false_or] at h
        exact h
      have := ih this
      omega
    · rw [if_neg h0]; omega

theorem providedRunLen_shift {α : Type} (f : α → Bool) :
    ∀ (pc : Nat) (l : List α), pc ≤ l.length → (l.take pc).all f = true →
      providedRunLen f l = pc + providedRunLen f (l.drop pc) := by
  intro pc
  induction pc with
  | zero => intro l _ _; simp
  | succ pc ih =>
    intro l hlen hall
    match l with
    | [] => simp at hlen
    | e :: rs =>
      simp only [List.take_succ_cons, List.all_cons, Bool.and_eq_true] at hall
      simp only [providedRunLen, hall.1, if_true, List.drop_succ_cons]
      have := ih rs (by simpa using hlen) hall.2
      omega

theorem getElem?_drop_add {α : Type} :
    ∀ (l : List α) (i k : Nat), (l.drop i)[k]? = l[i + k]? := by
  intro l
  induction l with
  | nil => intro i k; simp
  | cons e rs ih =>
    intro i k
    cases i with
    | zero => simp
    | succ i =>
      simp [Nat.succ_add, ih i k]

/-- C10: for a scan state whose cursor is within bounds and whose entries
before the cursor are all provided, a non-flag token is resolved against the
globally next unfilled entry in plan order; `Too many positional arguments`
is reported exactly when every entry (required and optional alike) is
already filled, and when some entry is unfilled the token binds — without
any `--name` flag — to the first unfilled entry, which is an optional
declaration whenever every required one is already filled. -/
theorem c10_positional_fill_order (rt : List RtEntry) (values : VMap) (pc : Nat)
    (tok : String) (rest : List String)
    (hpc : pc ≤ rt.length)
    (hinv : (rt.take pc).all RtEntry.provided = true)
    (htok : startsDashDash tok = false) :
    nextPosIndex rt pc = nextPosIndex rt 0
    ∧ (rt.all RtEntry.provided = true →
        scanTokens rt values pc (tok :: rest) = .error "Too many positional arguments")
    ∧ (rt.any (fun e => !e.provided) = true → nextPosIndex rt pc < rt.length)
    ∧ (∀ e, rt[nextPosIndex rt pc]? = some e →
        e.provided = false
        ∧ (rt.all (fun x => !x.plan.required || x.provided) = true →
            e.plan.required = false)
        ∧ ((e.plan.multiline && !e.plan.rep) = false →
            scanTokens rt values pc (tok :: rest)
              = match e.plan.convert tok with
                | none => .error ("Invalid value for " ++ e.plan.name)
                | some p => scanTokens (rt.set (nextPosIndex rt pc) (bindEntry e p))
                    (bindValues values e p)
                    (if e.plan.rep then nextPosIndex rt pc else nextPosIndex rt pc + 1)
                    rest)) := by
  have hshift := providedRunLen_shift RtEntry.provided pc rt hpc hinv
  refine ⟨?_, ?_, ?_, ?_⟩
  · simp [nextPosIndex, hshift]
  · intro hall
    have hlen : providedRunLen RtEntry.provided (rt.drop pc) = (rt.drop pc).length := by
      refine providedRunLen_of_all _ _ ?_
      simp only [List.all_eq_true] at hall ⊢
      exact fun e he => hall e (List.drop_subset pc rt he)
    have hge : rt.length ≤ nextPosIndex rt pc := by
      simp only [nextPosIndex, hlen, List.length_drop]
      omega
    have hnone : rt[nextPosIndex rt pc]? = none := List.getElem?_eq_none hge
    simp only [scanTokens, htok, Bool.false_eq_true, if_false, hnone]
  · intro hany
    have hmem : ∃ e ∈ rt.drop pc, !e.provided := by
      simp only [List.any_eq_true] at hany
      obtain ⟨e, he, hp⟩ := hany
      refine ⟨e, ?_, hp⟩
      rcases List.mem_append.mp ((List.take_append_drop pc rt).symm ▸ he) with h | h
      · exfalso
        simp only [List.all_eq_true] at hinv
        have := hinv e h
        simp [this] at hp
      · exact h
    have : (rt.drop pc).any (fun e => !e.provided) = true :=
      List.any_eq_true.mpr (by simpa using hmem)
    have := providedRunLen_lt_of_any _ _ this
    simp only [nextPosIndex, List.length_drop] at *
    omega
  · intro e he
    have hprov : e.provided = false := by
      have : (rt.drop pc)[providedRunLen RtEntry.provided (rt.drop pc)]? = some e := by
        rw [getElem?_drop_add]
        exact he
      exact providedRunLen_get _ _ _ this
    refine ⟨hprov, ?_, ?_⟩
    · intro hall
      have hmem : e ∈ rt := by
        rw [List.getElem?_eq_some_iff] at he
        obtain ⟨h, rfl⟩ := he
        exact List.getElem_mem h
      simp only [List.all_eq_true] at hall
      have := hall e hmem
      rcases Bool.or_eq_true_iff.mp this with h | h
      · simpa using h
      · rw [hprov] at h; cases h
    · intro hnm
      simp only [scanTokens, htok, Bool.false_eq_true, if_false, he, hnm,
        Bool.false_eq_true, if_false]

/-- Witness for C10: with `name` filled, a further plain token targets the
optional `hours` entry positionally (same index whether counted from the
cursor or from the start), no overflow is reported, and the target is not a
required declaration. -/
theorem c10_positional_fill_order_witness :
    nextPosIndex rt10 1 = nextPosIndex rt10 0
    ∧ nextPosIndex rt10 1 < rt10.length
    ∧ rt10e1.provided = false
    ∧ rt10e1.plan.required = false := by
  have h := c10_positional_fill_order rt10 [] 1 "3" [] (by decide) (by decide) rfl
  exact ⟨h.1, h.2.2.1 (by decide), (h.2.2.2 rt10e1 rfl).1,
    (h.2.2.2 rt10e1 rfl).2.1 (by decide)⟩

theorem getLast?_cons_eq {α : Type} :
    ∀ (l : List α) (p : α), (p :: l).getLast? = some (l.getLast?.getD p) := by
  intro l
  induction l with
  | nil => intro p; rfl
  | cons q l ih =>
    intro p
    rw [List.getLast?_cons_cons, ih q]
    simp [ih q]

theorem rep_fold_step (v : Value) (p : Prim) (evs : List Prim) :
    evs.foldl entryAppendVal (entryAppendVal v p)
      = (p :: evs).foldl entryAppendVal v := rfl

theorem nonrep_last_step (v newv : Value) (p : Prim) (evs : List Prim)
    (hv : newv = .prim p) :
    (match evs.getLast? with | none => newv | some q => Value.prim q)
      = match (p :: evs).getLast? with | none => v | some q => Value.prim q := by
  rw [getLast?_cons_eq]
  cases hl : evs.getLast? <;> simp [hl, hv]

theorem c6_aux :
    ∀ (n : Nat) (ts : List String), ts.length ≤ n →
      ∀ (rt : List RtEntry) (values : VMap) (pc : Nat) (out : ScanState)
        (j : Nat) (e : RtEntry),
        scanTokens rt values pc ts = .ok out → rt[j]? = some e →
        ∃ e', out.1[j]? = some e'
          ∧ (e.plan.rep = true →
              e'.value = (bindingsFor rt pc ts j).foldl entryAppendVal e.value)
          ∧ (e.plan.rep = false →
              e'.value = match (bindingsFor rt pc ts j).getLast? with
                | none => e.value
                | some p => .prim p) := by
  intro n
  induction n with
  | zero =>
    intro ts hlen rt values pc out j e h hget
    obtain rfl : ts = [] := List.eq_nil_of_length_eq_zero (Nat.le_zero.mp hlen)
    simp only [scanTokens] at h
    obtain rfl : (rt, values, pc) = out := by simpa using h
    exact ⟨e, hget, fun _ => by simp [bindingsFor, scanBindings],
      fun _ => by simp [bindingsFor, scanBindings]⟩
  | succ n ih =>
    intro ts hlen rt values pc out j e h hget
    match ts with
    | [] =>
      simp only [scanTokens] at h
      obtain rfl : (rt, values, pc) = out := by simpa using h
      exact ⟨e, hget, fun _ => by simp [bindingsFor, scanBindings],
        fun _ => by simp [bindingsFor, scanBindings]⟩
    | tok :: rest =>
      simp only [scanTokens] at h
      split at h
      case isTrue htok =>
        cases hfi : flagIdx? rt ((splitFlag tok).1) with
        | none => simp [hfi] at h
        | some je =>
          obtain ⟨j₀, e₀⟩ := je
          simp only [hfi] at h
          have hget₀ : rt[j₀]? = some e₀ := flagIdx_get hfi
          have hlt₀ : j₀ < rt.length := (List.getElem?_eq_some_iff.mp hget₀).1
          cases hsf : (splitFlag tok).2 with
          | some raw =>
            simp only [hsf] at h
            cases hcv : e₀.plan.convert raw with
            | none => simp [hcv] at h
            | some p =>
              simp only [hcv] at h
              by_cases hj : j₀ = j
              · subst hj
                obtain rfl : e = e₀ := Option.some.inj (hget.symm.trans hget₀)
                have hbind : bindingsFor rt pc (tok :: rest) j₀
                    = p :: bindingsFor (rt.set j₀ (bindEntry e p)) pc rest j₀ := by
                  simp only [bindingsFor, scanBindings, htok, if_true, hfi, hsf, hcv]
                  simp [List.filter_cons]
                have he₁ : (rt.set j₀ (bindEntry e p))[j₀]? = some (bindEntry e p) :=
                  List.getElem?_set_self (by simpa using hlt₀)
                obtain ⟨e', hout, hrep', hnrep'⟩ :=
                  ih rest (by simp at hlen; omega) _ _ _ out j₀ (bindEntry e p) h he₁
                refine ⟨e', hout, ?_, ?_⟩
                · intro hrep
                  rw [hrep' (by simp [bindEntry, hrep]), hbind]
                  simp [bindEntry, hrep, List.foldl_cons]
                · intro hnrep
                  rw [hnrep' (by simp [bindEntry, hnrep]), hbind]
                  exact nonrep_last_step e.value _ p _ (by simp [bindEntry, hnrep])
              · have hbind : bindingsFor rt pc (tok :: rest) j
                    = bindingsFor (rt.set j₀ (bindEntry e₀ p)) pc rest j := by
                  simp only [bindingsFor, scanBindings, htok, if_true, hfi, hsf, hcv]
                  simp [List.filter_cons, hj]
                have he₁ : (rt.set j₀ (bindEntry e₀ p))[j]? = some e := by
                  rw [List.getElem?_set_ne hj]
                  exact hget
                obtain ⟨e', hout, hrep', hnrep'⟩ :=
                  ih rest (by simp at hlen; omega) _ _ _ out j e h he₁
                refine ⟨e', hout, ?_, ?_⟩
                · intro hrep
                  rw [hrep' hrep, hbind]
                · intro hnrep
                  rw [hnrep' hnrep, hbind]
          | none =>
            simp only [hsf] at h
            cases rest with
            | nil => simp at h
            | cons raw rest' =>
              cases hcv : e₀.plan.convert raw with
              | none => simp [hcv] at h
              | some p =>
                simp only [hcv] at h
                by_cases hj : j₀ = j
                · subst hj
                  obtain rfl : e = e₀ := Option.some.inj (hget.symm.trans hget₀)
                  have hbind : bindingsFor rt pc (tok :: raw :: rest') j₀
                      = p :: bindingsFor (rt.set j₀ (bindEntry e p)) pc rest' j₀ := by
                    simp only [bindingsFor, scanBindings, htok, if_true, hfi, hsf, hcv]
                    simp [List.filter_cons]
                  have he₁ : (rt.set j₀ (bindEntry e p))[j₀]? = some (bindEntry e p) :=
                    List.getElem?_set_self (by simpa using hlt₀)
                  obtain ⟨e', hout, hrep', hnrep'⟩ :=
                    ih rest' (by simp at hlen; omega) _ _ _ out j₀ (bindEntry e p) h he₁
                  refine ⟨e', hout, ?_, ?_⟩
                  · intro hrep
                    rw [hrep' (by simp [bindEntry, hrep]), hbind]
                    simp [bindEntry, hrep, List.foldl_cons]
                  · intro hnrep
                    rw [hnrep' (by simp [bindEntry, hnrep]), hbind]
                    exact nonrep_last_step e.value _ p _ (by simp [bindEntry, hnrep])
                · have hbind : bindingsFor rt pc (tok :: raw :: rest') j
                      = bindingsFor (rt.set j₀ (bindEntry e₀ p)) pc rest' j := by
                    simp only [bindingsFor, scanBindings, htok, if_true, hfi, hsf, hcv]
                    simp [List.filter_cons, hj]
                  have he₁ : (rt.set j₀ (bindEntry e₀ p))[j]? = some e := by
                    rw [List.getElem?_set_ne hj]
                    exact hget
                  obtain ⟨e', hout, hrep', hnrep'⟩ :=
                    ih rest' (by simp at hlen; omega) _ _ _ out j e h he₁
                  refine ⟨e', hout, ?_, ?_⟩
                  · intro hrep
                    rw [hrep' hrep, hbind]
                  · intro hnrep
                    rw [hnrep' hnrep, hbind]
      case isFalse htok =>
        cases hg : rt[nextPosIndex rt pc]? with
        | none => simp [hg] at h
        | some e₀ =>
          simp only [hg] at h
          have hlt₀ : nextPosIndex rt pc < rt.length := (List.getElem?_eq_some_iff.mp hg).1
          split at h
          case isTrue hml =>
            cases hcv : e₀.plan.convert (String.intercalate " " (tok :: rest)) with
            | none => simp [hcv] at h
            | some p =>
              simp only [hcv] at h
              obtain rfl : (rt.set (nextPosIndex rt pc) (bindEntry e₀ p),
                  bindValues values e₀ p, nextPosIndex rt pc + 1) = out := by simpa using h
              by_cases hj : nextPosIndex rt pc = j
              · subst hj
                obtain rfl : e = e₀ := Option.some.inj (hget.symm.trans hg)
                have hnrep₀ : e.plan.rep = false := by
                  rcases Bool.and_eq_true_iff.mp hml with ⟨_, h2⟩
                  simpa using h2
                have hbind : bindingsFor rt pc (tok :: rest) (nextPosIndex rt pc)
                    = [p] := by
                  simp only [bindingsFor, scanBindings, htok, Bool.false_eq_true,
                    if_false, hg, hml, if_true, hcv]
                  simp [List.filter_cons]
                refine ⟨bindEntry e p,
                  List.getElem?_set_self (by simpa using hlt₀), ?_, ?_⟩
                · intro hrep
                  rw [hrep] at hnrep₀
                  cases hnrep₀
                · intro _
                  rw [hbind]
                  simp [bindEntry, hnrep₀]
              · have hbind : bindingsFor rt pc (tok :: rest) j = [] := by
                  simp only [bindingsFor, scanBindings, htok, Bool.false_eq_true,
                    if_false, hg, hml, if_true, hcv]
                  simp [List.filter_cons, hj]
                refine ⟨e, ?_, ?_, ?_⟩
                · rw [List.getElem?_set_ne hj]
                  exact hget
                · intro _
                  rw [hbind]
                  simp
                · intro _
                  rw [hbind]
                  simp
          case isFalse hml =>
            cases hcv : e₀.plan.convert tok with
            | none => simp [hcv] at h
            | some p =>
              simp only [hcv] at h
              by_cases hj : nextPosIndex rt pc = j
              · subst hj
                obtain rfl : e = e₀ := Option.some.inj (hget.symm.trans hg)
                have hbind : bindingsFor rt pc (tok :: rest) (nextPosIndex rt pc)
                    = p :: bindingsFor (rt.set (nextPosIndex rt pc) (bindEntry e p))
                        (if e.plan.rep then nextPosIndex rt pc else nextPosIndex rt pc + 1)
                        rest (nextPosIndex rt pc) := by
                  simp only [bindingsFor, scanBindings, htok, Bool.false_eq_true,
                    if_false, hg, hml, hcv]
                  simp [List.filter_cons]
                have he₁ : (rt.set (nextPosIndex rt pc)
                    (bindEntry e p))[nextPosIndex rt pc]? = some (bindEntry e p) :=
                  List.getElem?_set_self (by simpa using hlt₀)
                obtain ⟨e', hout, hrep', hnrep'⟩ :=
                  ih rest (by simp at hlen; omega) _ _ _ out (nextPosIndex rt pc)
                    (bindEntry e p) h he₁
                refine ⟨e', hout, ?_, ?_⟩
                · intro hrep
                  rw [hrep' (by simp [bindEntry, hrep]), hbind]
                  simp [bindEntry, hrep, List.foldl_cons]
                · intro hnrep
                  rw [hnrep' (by simp [bindEntry, hnrep]), hbind]
                  exact nonrep_last_step e.value _ p _ (by simp [bindEntry, hnrep])
              · have hbind : bindingsFor rt pc (tok :: rest) j
                    = bindingsFor (rt.set (nextPosIndex rt pc) (bindEntry e₀ p))
                        (if e₀.plan.rep then nextPosIndex rt pc else nextPosIndex rt pc + 1)
                        rest j := by
                  simp only [bindingsFor, scanBindings, htok, Bool.false_eq_true,
                    if_false, hg, hml, hcv]
                  simp [List.filter_cons, hj]
                have he₁ : (rt.set (nextPosIndex rt pc) (bindEntry e₀ p))[j]? = some e := by
                  rw [List.getElem?_set_ne hj]
                  exact hget
                obtain ⟨e', hout, hrep', hnrep'⟩ :=
                  ih rest (by simp at hlen; omega) _ _ _ out j e h he₁
                refine ⟨e', hout, ?_, ?_⟩
                · intro hrep
                  rw [hrep' hrep, hbind]
                · intro hnrep
                  rw [hnrep' hnrep, hbind]

/-- C6: for every runtime state and token sequence on which the scan
succeeds, a repeat declaration ends up holding its initial list extended by
every occurrence bound to it, in encounter order, while a non-repeat
declaration ends up holding the last value bound to it (its initial value if
none was). -/
theorem c6_repeat_accumulates (ts : List String) (rt : List RtEntry)
    (values : VMap) (pc : Nat) (out : ScanState) (j : Nat) (e : RtEntry)
    (h : scanTokens rt values pc ts = .ok out) (hget : rt[j]? = some e) :
    ∃ e', out.1[j]? = some e'
      ∧ (e.plan.rep = true →
          e'.value = (bindingsFor rt pc ts j).foldl entryAppendVal e.value)
      ∧ (e.plan.rep = false →
          e'.value = match (bindingsFor rt pc ts j).getLast? with
            | none => e.value
            | some p => .prim p) :=
  c6_aux ts.length ts le_rfl rt values pc out j e h hget

/-- Witness for C6: scanning `--tags 1 --tags=2 --label x --label=y` leaves
the repeat declaration `tags` holding `[1, 2]` (both occurrences, in
encounter order) and the non-repeat declaration `label` holding only its
last binding `"y"`. -/
theorem c6_repeat_accumulates_witness :
    (scan6out.1[0]?).map RtEntry.value = some (Value.vList [.pInt 1, .pInt 2])
    ∧ (scan6out.1[1]?).map RtEntry.value = some (Value.prim (.pStr "y")) := by
  have h0 := c6_repeat_accumulates argv6 rt6 vals6 (nextPosIndex rt6 0) scan6out
    0 rt6e0 rfl rfl
  have h1 := c6_repeat_accumulates argv6 rt6 vals6 (nextPosIndex rt6 0) scan6out
    1 rt6e1 rfl rfl
  obtain ⟨e0, hout0, hrep0, -⟩ := h0
  obtain ⟨e1, hout1, -, hnrep1⟩ := h1
  constructor
  · rw [hout0]
    show some e0.value = _
    rw [hrep0 rfl]
    decide
  · rw [hout1]
    show some e1.value = _
    rw [hnrep1 rfl]
    decide

/-- C8: with the fetch table `{alpha: [core, ml], beta: [etl]}`, completing
the dependent `module` argument with an empty prefix yields exactly
`[core, ml]` when the completed tokens bind `project` to `alpha`, and
re-running the scan with `beta` yields exactly `[etl]`; the parent value is
re-read from the sibling snapshot recomputed on each invocation, a
repeatable parent contributes its last element, and an unbound (or empty)
parent reads as the empty string. -/
theorem c8_dependent_scenario :
    slashComplete depParams ["/cmd", "alpha"] true = ["core", "ml"]
    ∧ slashComplete depParams ["/cmd", "beta"] true = ["etl"]
    ∧ (completionScan depParams ["/cmd", "alpha"] true).2
      = [("project", .prim (.pStr "alpha"))]
    ∧ (completionScan depParams ["/cmd", "beta"] true).2
      = [("project", .prim (.pStr "beta"))]
    ∧ slashComplete depRepParams
        ["/cmd", "--project", "alpha", "--project", "beta"] true = ["etl"]
    ∧ slashComplete depRepParams ["/cmd"] true = []
    ∧ dependent "project" fetchTable emptyParentCtx
      = fetchTable "" emptyParentCtx :=
  ⟨rfl, rfl, rfl, rfl, rfl, rfl, rfl⟩

/-- C9 counterexample: when the in-progress token is a complete flag name
with no `=` (here `--hours`), the engine yields the suggestion source's
candidates unfiltered — `foo` is yielded although the current prefix is
`--hours` and `foo` does not start with it. -/
theorem c9_counterexample_flag_no_eq :
    slashComplete constParams ["/t", "--hours"] false = ["foo"]
    ∧ completionPfxOf ["/t", "--hours"] false = "--hours"
    ∧ pyStartsWith "foo" "--hours" = false :=
  ⟨rfl, rfl, rfl⟩

theorem pyStartsWith_empty (s : String) : pyStartsWith s "" = true := by
  simp [pyStartsWith]

/-- C9 (amended): unless the in-progress token is a flag token containing no
`=`, the engine yields exactly the candidates starting with the current
prefix (so a candidate equal to the prefix is still yielded); when the
in-progress token is a flag token with no `=`, every candidate is yielded
unfiltered; and for an in-progress `--name=`-style token the prefix is the
substring after the first `=`. -/
theorem c9_prefix_filter_amended (params : List ParamPlan)
    (tokens : List String) (trailing : Bool) :
    (¬(startsDashDash (activeTokenOf tokens trailing) = true
        ∧ hasEq (activeTokenOf tokens trailing) = false) →
      slashComplete params tokens trailing
        = (rawSuggestions params tokens trailing).filter
            (fun s => pyStartsWith s (completionPfxOf tokens trailing)))
    ∧ ((startsDashDash (activeTokenOf tokens trailing) = true
        ∧ hasEq (activeTokenOf tokens trailing) = false) →
      slashComplete params tokens trailing = rawSuggestions params tokens trailing)
    ∧ (∀ v, trailing = false →
        (splitFlag (activeTokenOf tokens trailing)).2 = some v →
        pyStartsWith (activeTokenOf tokens trailing) "--" = true →
        completionPfxOf tokens trailing = v) := by
  refine ⟨?_, ?_, ?_⟩
  · intro h
    have hb : (startsDashDash (activeTokenOf tokens trailing)
        && !hasEq (activeTokenOf tokens trailing)) = false := by
      cases hA : startsDashDash (activeTokenOf tokens trailing) <;>
        cases hB : hasEq (activeTokenOf tokens trailing) <;> simp_all
    unfold slashComplete
    apply List.filter_congr
    intro s _
    by_cases hcp : completionPfxOf tokens trailing = ""
    · rw [hcp]
      simp [pyStartsWith_empty]
    · simp only [hb, Bool.not_false, Bool.and_true]
      cases hs : pyStartsWith s (completionPfxOf tokens trailing) <;>
        simp [hcp, hs]
  · intro h
    have hb : (startsDashDash (activeTokenOf tokens trailing)
        && !hasEq (activeTokenOf tokens trailing)) = true := by
      simp [h.1, h.2]
    unfold slashComplete
    apply List.filter_eq_self.mpr
    intro s _
    simp [hb]
  · intro v htr hsp hpys
    subst htr
    have hc : (pyStartsWith (activeTokenOf tokens false) "--"
        && hasEq (activeTokenOf tokens false)) = true := by
      simp [hpys, hasEq, hsp]
    simp [completionPfxOf, hc, hsp]

/-- Witness for the amended C9: with the in-progress token `--hours=f` the
yielded candidates are exactly the source's candidates filtered by the
post-`=` prefix `f`. -/
theorem c9_prefix_filter_amended_witness :
    slashComplete constParams ["/t", "--hours=f"] false
      = (rawSuggestions constParams ["/t", "--hours=f"] false).filter
          (fun s => pyStartsWith s (completionPfxOf ["/t", "--hours=f"] false)) :=
  (c9_prefix_filter_amended constParams ["/t", "--hours=f"] false).1 (by decide)

end Tui
